import Mathlib

/-!
Shallow embedding of the data-dictionary backend core
(word-root / standard-field catalog with a best-effort vector-index
mirror, a jieba-based lexical resolver and a two-tier search router).

Text is modelled as `List Char`; the relational catalog and the vector
index are modelled through explicit result parameters (`Except Unit _`
for fallible store calls), so each handler is a pure function of its
store outcomes that returns the HTTP status code it produces together
with the index operations it attempts.
-/

namespace DataDict

/-- Unicode `White_Space` predicate, as used by the Rust
`char::is_whitespace` (hence by `str::trim` and `split_whitespace`). -/
def rustWS (c : Char) : Bool :=
  c = '\t' || c = '\n' || c = '\x0b' || c = '\x0c' || c = '\r' || c = ' ' ||
  c = '\u0085' || c = '\u00A0' || c = '\u1680' ||
  (0x2000 ≤ c.toNat && c.toNat ≤ 0x200A) ||
  c = '\u2028' || c = '\u2029' || c = '\u202F' || c = '\u205F' || c = '\u3000'

/-- POSIX `[[:space:]]` class used by the PostgreSQL regex in
`suggest_field_name`: space, tab, newline, vertical tab, form feed,
carriage return. -/
def posixSpace (c : Char) : Bool :=
  c = ' ' || c = '\t' || c = '\n' || c = '\x0b' || c = '\x0c' || c = '\r'

/-- Rust `str::trim`: strip leading and trailing whitespace. -/
def trimChars (l : List Char) : List Char :=
  ((l.dropWhile rustWS).reverse.dropWhile rustWS).reverse

/-- Accumulator-based splitter behind `split_whitespace`: maximal runs of
non-whitespace characters, in order, empties dropped.  `acc` holds the
current run reversed. -/
def splitWSAux (acc : List Char) : List Char → List (List Char)
  | [] => if acc.isEmpty then [] else [acc.reverse]
  | c :: cs =>
    if rustWS c then
      if acc.isEmpty then splitWSAux [] cs else acc.reverse :: splitWSAux [] cs
    else splitWSAux (c :: acc) cs

/-- Rust `str::split_whitespace` on `List Char`. -/
def split_whitespace (l : List Char) : List (List Char) :=
  splitWSAux [] l

/-- Helper `normalize_terms` of `word_root_handler`: replace ASCII and full-width
commas by spaces, split on whitespace, re-join with single spaces. -/
def normalize_terms (input : Option (List Char)) : Option (List Char) :=
  input.map fun s =>
    List.intercalate [' ']
      (split_whitespace (s.map fun c => if c = ',' || c = '，' then ' ' else c))

/-- Row of `standard_word_roots` (`models/word_root.rs::WordRoot`). -/
structure WordRoot where
  id : Int
  cn_name : List Char
  en_abbr : List Char
  en_full_name : Option (List Char)
  associated_terms : Option (List Char)
  remark : Option (List Char)
  created_at : Option Int
deriving DecidableEq, Repr

/-- Semantics of the regex fragment `w([[:space:]]|$)` at the current
position of `rest`, where the token `w` is interpreted literally and
compared case-insensitively (the query uses the case-insensitive regex
operator `~*`): `w` must be a prefix of `rest` and be followed by a
whitespace character or the end of the string. -/
def prefixBounded : List Char → List Char → Bool
  | [], [] => true
  | [], c :: _ => posixSpace c
  | _ :: _, [] => false
  | a :: w, b :: rest => (a.toLower = b.toLower) && prefixBounded w rest

/-- Scan for an occurrence of `[[:space:]]w([[:space:]]|$)` anywhere in
the string. -/
def wwSearch (w : List Char) : List Char → Bool
  | [] => false
  | c :: rest => (posixSpace c && prefixBounded w rest) || wwSearch w rest

/-- Semantics of the PostgreSQL pattern
`(^|[[:space:]])w([[:space:]]|$)` built by `suggest_field_name`
(for a token `w` containing no regex metacharacter, so that `w` is
matched literally), under the case-insensitive operator `~*`. -/
def wwMatch (w terms : List Char) : Bool :=
  prefixBounded w terms || wwSearch w terms

/-- Regex metacharacters of POSIX extended regexes; `suggest_field_name`
interpolates the raw token into the pattern, so the embedding of the
synonym query (`wwMatch`) is faithful exactly for tokens free of these. -/
def regexMeta : List Char :=
  ['.', '^', '$', '*', '+', '?', '(', ')', '[', ']', '\x7b', '\x7d', '|', '\\']

/-- Token contains no regex metacharacter (so the SQL regex treats it as
a literal word). -/
def regexLiteral (w : List Char) : Bool :=
  w.all fun c => !(regexMeta.contains c)

/-- The SQL row filter of `suggest_field_name`:
`cn_name = $1` OR `associated_terms ~* (^|[[:space:]])$1([[:space:]]|$)`
(a NULL `associated_terms` never matches the regex).  Faithful for
tokens free of regex metacharacters; `tokenMatchesDot` extends the
semantics to tokens containing the dot metacharacter. -/
def tokenMatches (w : List Char) (r : WordRoot) : Bool :=
  w = r.cn_name ||
    (match r.associated_terms with
     | some t => wwMatch w t
     | none => false)

/-- Pattern-character match under a case-insensitive POSIX regex: a dot
in the pattern matches any character, every other pattern character
matches literally up to case. -/
def charMatches (a b : Char) : Bool :=
  a = '.' || a.toLower = b.toLower

/-- Variant of `prefixBounded` interpreting the token as regex syntax
restricted to literal characters and dots. -/
def dotPrefixBounded : List Char → List Char → Bool
  | [], [] => true
  | [], c :: _ => posixSpace c
  | _ :: _, [] => false
  | a :: w, b :: rest => charMatches a b && dotPrefixBounded w rest

/-- Variant of `wwSearch` for the dot-extended interpretation. -/
def dotWWSearch (w : List Char) : List Char → Bool
  | [] => false
  | c :: rest => (posixSpace c && dotPrefixBounded w rest) || dotWWSearch w rest

/-- Semantics of the pattern `(^|[[:space:]])w([[:space:]]|$)` under
`~*` for a token `w` whose only regex metacharacter is the dot: the raw
token is interpolated into the pattern, so a `.` in the token matches
any single character of the synonym string.  Coincides with `wwMatch`
on dot-free tokens (`wwMatchDot_eq_wwMatch`). -/
def wwMatchDot (w terms : List Char) : Bool :=
  dotPrefixBounded w terms || dotWWSearch w terms

/-- The SQL row filter of `suggest_field_name` for a token whose only
regex metacharacter is the dot. -/
def tokenMatchesDot (w : List Char) (r : WordRoot) : Bool :=
  w = r.cn_name ||
    (match r.associated_terms with
     | some t => wwMatchDot w t
     | none => false)

/-- The whole-word-occurrence property the specification describes: the
token occurs (case-insensitively) as a contiguous segment of the synonym
string that is flanked on the left by the start of the string or a
whitespace character, and on the right by the end of the string or a
whitespace character. -/
def WholeWordOcc (w terms : List Char) : Prop :=
  ∃ pre mid post, terms = pre ++ mid ++ post ∧
    mid.map Char.toLower = w.map Char.toLower ∧
    (pre = [] ∨ ∃ pre₀ c, pre = pre₀ ++ [c] ∧ posixSpace c) ∧
    (post = [] ∨ ∃ c post₀, post = c :: post₀ ∧ posixSpace c)

/-- Per-token loop of `mapping_service::suggest_field_name`, returning
(identifier parts, missing words, matched ids).  `db` is the outcome of
the per-token catalog lookup (`fetch_optional`): the code collapses a
query error to a miss via `.unwrap_or(None)`. -/
def resolveLoop (db : List Char → Except Unit (Option WordRoot)) :
    List (List Char) → List (List Char) × List (List Char) × List Int
  | [] => ([], [], [])
  | w :: ws =>
    let rest := resolveLoop db ws
    if (trimChars w).isEmpty then rest
    else
      match ((db w).toOption.getD none) with
      | some r => (r.en_abbr :: rest.1, rest.2.1, r.id :: rest.2.2)
      | none => (('[' :: w ++ [']']) :: rest.1, w :: rest.2.1, rest.2.2)

/-- Service function `suggest_field_name` of `mapping_service`, with the jieba token list and
the per-token store outcomes as explicit inputs; returns
(identifier, missing words, matched ids). -/
def suggest_field_name (db : List Char → Except Unit (Option WordRoot))
    (words : List (List Char)) : List Char × List (List Char) × List Int :=
  let r := resolveLoop db words
  (List.intercalate ['_'] r.1, r.2.1, r.2.2)

/-- The pure catalog lookup the SQL of the service performs when the store is
reachable: first row (in table order) satisfying `tokenMatches`,
`LIMIT 1`. -/
def catalogLookup (catalog : List WordRoot) (w : List Char) :
    Except Unit (Option WordRoot) :=
  .ok (catalog.find? (tokenMatches w))

/-- Row of `standard_fields` (`models/field.rs::StandardField`). -/
structure StandardField where
  id : Int
  field_cn_name : List Char
  field_en_name : List Char
  composition_ids : List Int
  data_type : Option (List Char)
  associated_terms : Option (List Char)
  is_standard : Bool
  created_at : Option Int
deriving DecidableEq, Repr

/-- A vector-index (qdrant) operation a handler attempts, named by
collection. -/
inductive MirrorOp where
  | upsertPoint (collection : String) (id : Int)
  | deletePoint (collection : String) (id : Int)
  | deleteAllPoints (collection : String)
deriving DecidableEq, Repr

/-- A scored point returned by the vector index, as projected by the
search handlers (id, payload name fields, similarity score).  The score
is kept abstract as an integer rank stand-in: no handler computes with
it. -/
structure ScoredHit where
  idOpt : Option Nat
  cnName : Option (List Char)
  enName : Option (List Char)
  score : Int
deriving DecidableEq, Repr

/-- Handler `create_root` of `word_root_handler`: insert the (normalize_terms-ed)
row; on DB success add the name to jieba, embed, and — only if embedding
succeeded — upsert the vector point, discarding the upsert result
(`let _ = ...`); returns (HTTP status, attempted index ops). -/
def create_root (db : Except Unit WordRoot) (emb : Except Unit Nat)
    (upsert : Nat → Except Unit Unit) : Nat × List MirrorOp :=
  match db with
  | .ok root =>
    match emb with
    | .ok v =>
      let _ := upsert v
      (201, [.upsertPoint "word_roots" root.id])
    | .error _ => (201, [])
  | .error _ => (500, [])

/-- Handler `update_root` of `word_root_handler`: same mirror path as `create_root`,
status 200 on DB success, 500 on DB failure. -/
def update_root (db : Except Unit WordRoot) (emb : Except Unit Nat)
    (upsert : Nat → Except Unit Unit) : Nat × List MirrorOp :=
  match db with
  | .ok root =>
    match emb with
    | .ok v =>
      let _ := upsert v
      (200, [.upsertPoint "word_roots" root.id])
    | .error _ => (200, [])
  | .error _ => (500, [])

/-- Handler `delete_root` of `word_root_handler`: DB delete; if a row was affected,
delete the vector point (result discarded) and return 204; 404 when no
row matched; 500 on DB failure. -/
def delete_root (id : Int) (db : Except Unit Nat)
    (del : Except Unit Unit) : Nat × List MirrorOp :=
  match db with
  | .ok rowsAffected =>
    if 0 < rowsAffected then
      let _ := del
      (204, [.deletePoint "word_roots" id])
    else (404, [])
  | .error _ => (500, [])

/-- Handler `clear_all_roots` of `word_root_handler`: truncate the table; on success
clear the `word_roots` collection (result discarded) and return 200. -/
def clear_all_roots (db : Except Unit Unit)
    (del : Except Unit Unit) : Nat × List MirrorOp :=
  match db with
  | .ok _ =>
    let _ := del
    (200, [.deleteAllPoints "word_roots"])
  | .error _ => (500, [])

/-- Handler `create_field` of `field_handler`: plain SQL insert; no vector-index
call on this path. -/
def create_field (db : Except Unit StandardField) : Nat × List MirrorOp :=
  match db with
  | .ok _ => (201, [])
  | .error _ => (500, [])

/-- Handler `update_field` of `field_handler`: plain SQL update; 200 / 404 / 500; no
vector-index call on this path. -/
def update_field (db : Except Unit Nat) : Nat × List MirrorOp :=
  match db with
  | .ok rowsAffected => if 0 < rowsAffected then (200, []) else (404, [])
  | .error _ => (500, [])

/-- Handler `delete_field` of `field_handler`: plain SQL delete; 204 / 404 / 500; no
vector-index call on this path. -/
def delete_field (db : Except Unit Nat) : Nat × List MirrorOp :=
  match db with
  | .ok rowsAffected => if 0 < rowsAffected then (204, []) else (404, [])
  | .error _ => (500, [])

/-- Handler `clear_all_fields` of `field_handler`: truncate the table; on success
clear the `standard_fields` collection and — uniquely among the
mutation handlers — inspect the index result: 200 when it succeeded,
206 (PARTIAL_CONTENT) when it failed. -/
def clear_all_fields (db : Except Unit Unit)
    (del : Except Unit Unit) : Nat × List MirrorOp :=
  match db with
  | .ok _ =>
    match del with
    | .ok _ => (200, [.deleteAllPoints "standard_fields"])
    | .error _ => (206, [.deleteAllPoints "standard_fields"])
  | .error _ => (500, [])

/-- Body of a `search_field` response: either catalog rows (Tier 1, also
the final empty fallback) or projected vector hits (Tier 2). -/
inductive SearchBody where
  | fields (l : List StandardField)
  | hits (l : List ScoredHit)
deriving DecidableEq, Repr

/-- Observable outcome of one `search_field` call: HTTP status, body,
whether the Tier 1 SQL query was issued, and whether the embedding
model was invoked. -/
structure SearchOutcome where
  status : Nat
  body : SearchBody
  t1Queried : Bool
  embedCalled : Bool
deriving DecidableEq, Repr

/-- Handler `search_field` of `field_handler`.  `t1` is the catalog ILIKE query on
the pattern `%q%` (its failure is collapsed to an empty list by
`.unwrap_or_default()`), `emb` the embedding call on `q`, `idx` the
vector-index search.  Every path returns HTTP 200; there is no
empty-query validation. -/
def search_field (q : List Char)
    (t1 : List Char → Except Unit (List StandardField))
    (emb : List Char → Except Unit Nat)
    (idx : Nat → Except Unit (List ScoredHit)) : SearchOutcome :=
  let sql_results := (t1 ('%' :: q ++ ['%'])).toOption.getD []
  if !sql_results.isEmpty then
    ⟨200, .fields sql_results, true, false⟩
  else
    match emb q with
    | .ok v =>
      match idx v with
      | .ok res => ⟨200, .hits res, true, true⟩
      | .error _ => ⟨200, .fields [], true, true⟩
    | .error _ => ⟨200, .fields [], true, true⟩

/-- Handler `suggest_mapping` of `mapping_handler`: trim the query; reject an empty
result with 400 before any store access; otherwise run the resolver on
the jieba tokens of the trimmed input. -/
def suggest_mapping (q : List Char) (cut : List Char → List (List Char))
    (db : List Char → Except Unit (Option WordRoot)) :
    Nat × Option (List Char × List (List Char) × List Int) :=
  let input := trimChars q
  if input.isEmpty then (400, none)
  else (200, some (suggest_field_name db (cut input)))

/-- Handler `search_similar_roots` of `mapping_handler`: trim the query; reject an
empty result with 400 before embedding; otherwise embed and search the
`word_roots` collection, 500 on either Tier 2 failure. -/
def search_similar_roots (q : List Char)
    (emb : List Char → Except Unit Nat)
    (idx : Nat → Except Unit (List ScoredHit)) :
    Nat × Option (List ScoredHit) :=
  let input := trimChars q
  if input.isEmpty then (400, none)
  else
    match emb input with
    | .ok v =>
      match idx v with
      | .ok res => (200, some res)
      | .error _ => (500, none)
    | .error _ => (500, none)

/-- The normal form `normalize_terms` guarantees: groups are nonempty
and whitespace-free. -/
def GoodParts (parts : List (List Char)) : Prop :=
  ∀ p ∈ parts, p ≠ [] ∧ ∀ c ∈ p, rustWS c = false

/-- No two adjacent whitespace characters. -/
def NoWSPair (a b : Char) : Prop := ¬(rustWS a = true ∧ rustWS b = true)

instance : DecidableRel NoWSPair := fun a b => by unfold NoWSPair; infer_instance

/-- Has no leading, trailing, or consecutive whitespace. -/
def WellSpaced (l : List Char) : Prop :=
  (∀ c ∈ l.head?, rustWS c = false) ∧ (∀ c ∈ l.getLast?, rustWS c = false) ∧
  List.Chain' NoWSPair l

/-- Sample catalog row used in concrete instances. -/
def sampleRoot : WordRoot :=
  ⟨1, "价格".toList, "PRC".toList, none, some "费 价格".toList, none, none⟩

/-- Sample standard-field row used in concrete instances. -/
def sampleField : StandardField :=
  ⟨1, "价格日期".toList, "PRC_DT".toList, [1, 2], none, none, true, none⟩

/-- Sample vector hit used in concrete instances. -/
def sampleHit : ScoredHit :=
  ⟨some 1, some "价格".toList, some "PRC".toList, 0⟩

/-- Sample catalog row for the metacharacter divergence: canonical name
`b`, synonym list `a`. -/
def dotRoot : WordRoot :=
  ⟨2, ['b'], ['B'], none, some ['a'], none, none⟩


/-! ### Lemmas about `split_whitespace` and `normalize_terms` -/

lemma intercalate_nil (s : List Char) :
    List.intercalate s ([] : List (List Char)) = [] := by
  simp [List.intercalate]

lemma intercalate_cons₂ (s a b : List Char) (l : List (List Char)) :
    List.intercalate s (a :: b :: l) = a ++ s ++ List.intercalate s (b :: l) := by
  simp [List.intercalate, List.intersperse]

lemma intercalate_cons_eq (p : List Char) (rest : List (List Char)) :
    List.intercalate [' '] (p :: rest) =
      p ++ (if rest.isEmpty then [] else ' ' :: List.intercalate [' '] rest) := by
  cases rest with
  | nil => simp [List.intercalate]
  | cons q r => rw [intercalate_cons₂]; simp

lemma splitWSAux_ws (acc : List Char) (c : Char) (cs : List Char)
    (h : rustWS c = true) :
    splitWSAux acc (c :: cs) =
      if acc.isEmpty then splitWSAux [] cs
      else acc.reverse :: splitWSAux [] cs := by
  simp [splitWSAux, h]

lemma splitWSAux_nonws (acc : List Char) (c : Char) (cs : List Char)
    (h : rustWS c = false) :
    splitWSAux acc (c :: cs) = splitWSAux (c :: acc) cs := by
  simp [splitWSAux, h]

lemma splitWSAux_append (p : List Char) (hp : ∀ c ∈ p, rustWS c = false) :
    ∀ (acc l : List Char), splitWSAux acc (p ++ l) = splitWSAux (p.reverse ++ acc) l := by
  induction p with
  | nil => intro acc l; simp
  | cons c p ih =>
    intro acc l
    have hc : rustWS c = false := hp c (List.mem_cons_self ..)
    have hp' : ∀ x ∈ p, rustWS x = false :=
      fun x hx => hp x (List.mem_cons_of_mem _ hx)
    rw [List.cons_append, splitWSAux_nonws _ _ _ hc, ih hp']
    simp

lemma split_whitespace_intercalate :
    ∀ parts : List (List Char), GoodParts parts →
      split_whitespace (List.intercalate [' '] parts) = parts := by
  intro parts
  induction parts with
  | nil => intro _; simp [split_whitespace, intercalate_nil, splitWSAux]
  | cons p rest ih =>
    intro h
    have hp := h p (List.mem_cons_self ..)
    have hrest : GoodParts rest := fun q hq => h q (List.mem_cons_of_mem _ hq)
    have hpr : p.reverse.isEmpty = false := by
      cases hpe : p.reverse with
      | nil => exact absurd (by simpa using congrArg List.reverse hpe) hp.1
      | cons a t => rfl
    cases rest with
    | nil =>
      rw [intercalate_cons_eq]
      unfold split_whitespace
      rw [splitWSAux_append p hp.2]
      simp [splitWSAux, hpr]
    | cons q rest' =>
      rw [intercalate_cons_eq]
      unfold split_whitespace
      rw [splitWSAux_append p hp.2]
      simp only [List.isEmpty_cons, Bool.false_eq_true, if_false, List.append_nil]
      rw [splitWSAux_ws _ _ _ (by decide), if_neg (by simp [hpr])]
      have := ih hrest
      unfold split_whitespace at this
      rw [this, List.reverse_reverse]

lemma splitWSAux_groups :
    ∀ (l acc : List Char), (∀ c ∈ acc, rustWS c = false) →
      ∀ g ∈ splitWSAux acc l,
        g ≠ [] ∧ ∀ c ∈ g, rustWS c = false ∧ (c ∈ l ∨ c ∈ acc) := by
  intro l
  induction l with
  | nil =>
    intro acc hacc g hg
    by_cases h : acc.isEmpty
    · simp [splitWSAux, h] at hg
    · simp only [splitWSAux, h] at hg
      rw [if_neg (by simp)] at hg
      have hga : g = acc.reverse := by simpa using hg
      subst hga
      refine ⟨by simpa using fun hnil => h (by simp [hnil]), ?_⟩
      intro c hc
      rw [List.mem_reverse] at hc
      exact ⟨hacc c hc, Or.inr hc⟩
  | cons a cs ih =>
    intro acc hacc g hg
    by_cases ha : rustWS a = true
    · rw [splitWSAux_ws _ _ _ ha] at hg
      by_cases he : acc.isEmpty
      · rw [if_pos he] at hg
        have h := ih [] (by simp) g hg
        refine ⟨h.1, fun c hc => ⟨(h.2 c hc).1, ?_⟩⟩
        rcases (h.2 c hc).2 with h' | h'
        · exact Or.inl (List.mem_cons_of_mem _ h')
        · simp at h'
      · rw [if_neg he] at hg
        rcases List.mem_cons.1 hg with hg | hg
        · subst hg
          refine ⟨by simpa using fun hnil => he (by simp [hnil]), ?_⟩
          intro c hc
          rw [List.mem_reverse] at hc
          exact ⟨hacc c hc, Or.inr hc⟩
        · have h := ih [] (by simp) g hg
          refine ⟨h.1, fun c hc => ⟨(h.2 c hc).1, ?_⟩⟩
          rcases (h.2 c hc).2 with h' | h'
          · exact Or.inl (List.mem_cons_of_mem _ h')
          · simp at h'
    · have ha' : rustWS a = false := by simpa using ha
      rw [splitWSAux_nonws _ _ _ ha'] at hg
      have haa : ∀ c ∈ a :: acc, rustWS c = false := by
        intro c hc
        rcases List.mem_cons.1 hc with hc | hc
        · subst hc; exact ha'
        · exact hacc c hc
      have h := ih (a :: acc) haa g hg
      refine ⟨h.1, fun c hc => ⟨(h.2 c hc).1, ?_⟩⟩
      rcases (h.2 c hc).2 with h' | h'
      · exact Or.inl (List.mem_cons_of_mem _ h')
      · rcases List.mem_cons.1 h' with h' | h'
        · subst h'; exact Or.inl (List.mem_cons_self ..)
        · exact Or.inr h'

lemma split_whitespace_good (l : List Char) :
    GoodParts (split_whitespace l) := by
  intro g hg
  have h := splitWSAux_groups l [] (by simp) g hg
  exact ⟨h.1, fun c hc => (h.2 c hc).1⟩

lemma split_whitespace_mem (l : List Char) (g : List Char)
    (hg : g ∈ split_whitespace l) (c : Char) (hc : c ∈ g) : c ∈ l := by
  have h := splitWSAux_groups l [] (by simp) g hg
  rcases (h.2 c hc).2 with h' | h'
  · exact h'
  · simp at h'

lemma mem_intercalate_space :
    ∀ (parts : List (List Char)) (c : Char), c ∈ List.intercalate [' '] parts →
      c = ' ' ∨ ∃ g ∈ parts, c ∈ g := by
  intro parts
  induction parts with
  | nil => simp [intercalate_nil]
  | cons p rest ih =>
    intro c hc
    rw [intercalate_cons_eq] at hc
    rcases List.mem_append.1 hc with h | h
    · exact Or.inr ⟨p, List.mem_cons_self .., h⟩
    · by_cases he : rest.isEmpty
      · rw [if_pos he] at h; simp at h
      · rw [if_neg he] at h
        rcases List.mem_cons.1 h with h | h
        · exact Or.inl h
        · rcases ih c h with h | ⟨g, hg, hcg⟩
          · exact Or.inl h
          · exact Or.inr ⟨g, List.mem_cons_of_mem _ hg, hcg⟩

lemma mem_of_getLast?_mem {l : List Char} {x : Char} (h : x ∈ l.getLast?) :
    x ∈ l := by
  rcases List.mem_getLast?_eq_getLast h with ⟨hne, rfl⟩
  exact List.getLast_mem hne

lemma chain'_of_wsfree (p : List Char) (hp : ∀ c ∈ p, rustWS c = false) :
    List.Chain' NoWSPair p := by
  induction p with
  | nil => simp
  | cons a t ih =>
    rw [List.chain'_cons']
    refine ⟨fun y _ => ?_, ih fun c hc => hp c (List.mem_cons_of_mem _ hc)⟩
    unfold NoWSPair
    simp [hp a (List.mem_cons_self ..)]

lemma intercalate_head? (p : List Char) (rest : List (List Char)) (hp : p ≠ []) :
    (List.intercalate [' '] (p :: rest)).head? = p.head? := by
  rw [intercalate_cons_eq]
  cases p with
  | nil => exact absurd rfl hp
  | cons a t => rfl

lemma intercalate_ne_nil (p : List Char) (rest : List (List Char)) (hp : p ≠ []) :
    List.intercalate [' '] (p :: rest) ≠ [] := by
  rw [intercalate_cons_eq]
  cases p with
  | nil => exact absurd rfl hp
  | cons a t => simp

lemma intercalate_trailing :
    ∀ (parts : List (List Char)), GoodParts parts →
      ∀ c ∈ (List.intercalate [' '] parts).getLast?, rustWS c = false := by
  intro parts
  induction parts with
  | nil => simp [intercalate_nil]
  | cons p rest ih =>
    intro h c hc
    have hp := h p (List.mem_cons_self ..)
    have hrest : GoodParts rest := fun q hq => h q (List.mem_cons_of_mem _ hq)
    cases rest with
    | nil =>
      rw [intercalate_cons_eq] at hc
      simp only [List.isEmpty_nil, if_true, List.append_nil] at hc
      exact hp.2 c (mem_of_getLast?_mem hc)
    | cons q rest' =>
      rw [intercalate_cons_eq, if_neg (by simp)] at hc
      rw [List.getLast?_append_cons] at hc
      have hq := hrest q (List.mem_cons_self ..)
      have hne := intercalate_ne_nil q rest' hq.1
      rw [show (' ' :: List.intercalate [' '] (q :: rest'))
            = [' '] ++ List.intercalate [' '] (q :: rest') from rfl,
          List.getLast?_append_of_ne_nil _ hne] at hc
      exact ih hrest c hc

lemma intercalate_chain' :
    ∀ (parts : List (List Char)), GoodParts parts →
      List.Chain' NoWSPair (List.intercalate [' '] parts) := by
  intro parts
  induction parts with
  | nil => simp [intercalate_nil]
  | cons p rest ih =>
    intro h
    have hp := h p (List.mem_cons_self ..)
    have hrest : GoodParts rest := fun q hq => h q (List.mem_cons_of_mem _ hq)
    cases rest with
    | nil =>
      rw [intercalate_cons_eq]
      simp only [List.isEmpty_nil, if_true, List.append_nil]
      exact chain'_of_wsfree p hp.2
    | cons q rest' =>
      rw [intercalate_cons_eq, if_neg (by simp)]
      rw [List.chain'_append]
      refine ⟨chain'_of_wsfree p hp.2, ?_, ?_⟩
      · rw [List.chain'_cons']
        refine ⟨?_, ih hrest⟩
        intro y hy
        have hq := hrest q (List.mem_cons_self ..)
        rw [intercalate_head? q rest' hq.1] at hy
        have hyq : y ∈ q := List.mem_of_mem_head? hy
        unfold NoWSPair
        simp [hq.2 y hyq]
      · intro x hx y _
        have hxp : x ∈ p := mem_of_getLast?_mem hx
        unfold NoWSPair
        simp [hp.2 x hxp]

lemma comma_free_map (s : List Char) :
    ∀ c ∈ (s.map fun c => if c = ',' || c = '，' then ' ' else c),
      c ≠ ',' ∧ c ≠ '，' := by
  intro c hc
  rcases List.mem_map.1 hc with ⟨a, _, ha⟩
  by_cases h : (a = ',' || a = '，') = true
  · rw [if_pos h] at ha
    subst ha
    constructor <;> decide
  · rw [if_neg h] at ha
    subst ha
    simp only [Bool.or_eq_true, decide_eq_true_eq, not_or] at h
    exact ⟨by simpa using h.1, by simpa using h.2⟩

lemma normalized_parts_good (s : List Char) :
    GoodParts (split_whitespace
      (s.map fun c => if c = ',' || c = '，' then ' ' else c)) :=
  split_whitespace_good _

lemma normalize_output_comma_free (s : List Char) :
    ∀ c ∈ List.intercalate [' ']
        (split_whitespace (s.map fun c => if c = ',' || c = '，' then ' ' else c)),
      c ≠ ',' ∧ c ≠ '，' := by
  intro c hc
  rcases mem_intercalate_space _ c hc with h | ⟨g, hg, hcg⟩
  · subst h; constructor <;> decide
  · exact comma_free_map s c (split_whitespace_mem _ g hg c hcg)

lemma map_comma_id_of_comma_free (t : List Char)
    (h : ∀ c ∈ t, c ≠ ',' ∧ c ≠ '，') :
    (t.map fun c => if c = ',' || c = '，' then ' ' else c) = t := by
  rw [show t = t.map id by simp]
  rw [List.map_map]
  apply List.map_congr_left
  intro a ha
  have := h a (by simpa using ha)
  simp [this.1, this.2]

lemma intercalate_leading (parts : List (List Char)) (h : GoodParts parts) :
    ∀ c ∈ (List.intercalate [' '] parts).head?, rustWS c = false := by
  cases parts with
  | nil => simp [intercalate_nil]
  | cons p rest =>
    intro c hc
    have hp := h p (List.mem_cons_self ..)
    rw [intercalate_head? p rest hp.1] at hc
    exact hp.2 c (List.mem_of_mem_head? hc)

/-- C10: `normalize_terms` is idempotent, and its output contains no
ASCII comma and no full-width comma, and has no leading, trailing, or
consecutive whitespace — the single-space-separated normal form assumed
by the whole-word synonym regex of `suggest_field_name`.  `create_root`,
`batch_create_roots` and `update_root` all store
`normalize_terms payload.associated_terms` as the persisted
`associated_terms` value, so every stored value is exactly such an
output. -/
theorem normalize_terms_idempotent_normal_form (x : Option (List Char)) :
    normalize_terms (normalize_terms x) = normalize_terms x ∧
    ∀ t, normalize_terms x = some t →
      (∀ c ∈ t, c ≠ ',' ∧ c ≠ '，') ∧ WellSpaced t := by
  cases x with
  | none => exact ⟨rfl, by intro t ht; cases ht⟩
  | some s =>
    have hgood := normalized_parts_good s
    have hcf := normalize_output_comma_free s
    have hkey : normalize_terms (normalize_terms (some s)) = normalize_terms (some s) := by
      show normalize_terms (some _) = some _
      unfold normalize_terms
      simp only [Option.map_some']
      rw [map_comma_id_of_comma_free _ hcf, split_whitespace_intercalate _ hgood]
    refine ⟨hkey, ?_⟩
    intro t ht
    have htt : t = List.intercalate [' ']
        (split_whitespace (s.map fun c => if c = ',' || c = '，' then ' ' else c)) := by
      have : normalize_terms (some s) = some (List.intercalate [' ']
          (split_whitespace (s.map fun c => if c = ',' || c = '，' then ' ' else c))) := rfl
      rw [this] at ht
      exact (Option.some_inj.1 ht).symm
    subst htt
    exact ⟨hcf, intercalate_leading _ hgood, intercalate_trailing _ hgood,
      intercalate_chain' _ hgood⟩

/-- Concrete instance of `normalize_terms_idempotent_normal_form` at the
input `",a,  b,"` (normal form `"a b"`). -/
theorem normalize_terms_idempotent_normal_form_witness :
    normalize_terms (normalize_terms (some ",a,  b,".toList))
        = normalize_terms (some ",a,  b,".toList) ∧
    ('a' ≠ ',' ∧ 'a' ≠ '，') ∧ WellSpaced "a b".toList :=
  ⟨(normalize_terms_idempotent_normal_form (some ",a,  b,".toList)).1,
   ((normalize_terms_idempotent_normal_form (some ",a,  b,".toList)).2
      "a b".toList (by decide)).1 'a' (by decide),
   ((normalize_terms_idempotent_normal_form (some ",a,  b,".toList)).2
      "a b".toList (by decide)).2⟩

/-! ### The whole-word synonym regex -/

lemma boundedPrefix_iff :
    ∀ (w rest : List Char), prefixBounded w rest = true ↔
      ∃ mid post, rest = mid ++ post ∧
        mid.map Char.toLower = w.map Char.toLower ∧
        (post = [] ∨ ∃ c post₀, post = c :: post₀ ∧ posixSpace c = true) := by
  intro w
  induction w with
  | nil =>
    intro rest
    cases rest with
    | nil =>
      simp only [prefixBounded, List.map_nil]
      constructor
      · intro _; exact ⟨[], [], rfl, rfl, Or.inl rfl⟩
      · intro _; trivial
    | cons c rest' =>
      simp only [prefixBounded, List.map_nil]
      constructor
      · intro h
        exact ⟨[], c :: rest', rfl, rfl, Or.inr ⟨c, rest', rfl, h⟩⟩
      · rintro ⟨mid, post, heq, hmap, hb⟩
        have hmid : mid = [] := by
          cases mid with
          | nil => rfl
          | cons m mid' => simp at hmap
        subst hmid
        simp only [List.nil_append] at heq
        subst heq
        rcases hb with h | ⟨c', post₀, hpc, hc⟩
        · cases h
        · cases List.cons.injEq .. ▸ hpc with
          | _ => rw [(List.cons.inj hpc).1] ; exact hc
  | cons a w' ih =>
    intro rest
    cases rest with
    | nil =>
      simp only [prefixBounded]
      constructor
      · intro h; cases h
      · rintro ⟨mid, post, heq, hmap, _⟩
        have hmid : mid = [] := (List.append_eq_nil.1 heq.symm).1
        subst hmid
        simp at hmap
    | cons b rest' =>
      simp only [prefixBounded, Bool.and_eq_true, decide_eq_true_eq]
      constructor
      · rintro ⟨hab, hbp⟩
        rcases (ih rest').1 hbp with ⟨mid, post, heq, hmap, hb⟩
        refine ⟨b :: mid, post, by rw [List.cons_append, heq], ?_, hb⟩
        simp only [List.map_cons]
        rw [hmap, hab]
      · rintro ⟨mid, post, heq, hmap, hb⟩
        cases mid with
        | nil => simp at hmap
        | cons m mid' =>
          rw [List.cons_append] at heq
          have hm : m = b := (List.cons.inj heq).1.symm
          have hrest : rest' = mid' ++ post := (List.cons.inj heq).2
          subst hm
          simp only [List.map_cons] at hmap
          have h1 : m.toLower = a.toLower := (List.cons.inj hmap).1
          have h2 : mid'.map Char.toLower = w'.map Char.toLower := (List.cons.inj hmap).2
          exact ⟨h1.symm, (ih rest').2 ⟨mid', post, hrest, h2, hb⟩⟩

lemma wwSearch_iff :
    ∀ (w l : List Char), wwSearch w l = true ↔
      ∃ pre c rest, l = pre ++ c :: rest ∧ posixSpace c = true ∧
        prefixBounded w rest = true := by
  intro w l
  induction l with
  | nil =>
    simp only [wwSearch]
    constructor
    · intro h; cases h
    · rintro ⟨pre, c, rest, heq, _, _⟩
      cases pre <;> simp at heq
  | cons d l' ih =>
    simp only [wwSearch, Bool.or_eq_true, Bool.and_eq_true]
    constructor
    · rintro (⟨hd, hbp⟩ | h)
      · exact ⟨[], d, l', rfl, hd, hbp⟩
      · rcases ih.1 h with ⟨pre, c, rest, heq, hc, hbp⟩
        exact ⟨d :: pre, c, rest, by rw [List.cons_append, heq], hc, hbp⟩
    · rintro ⟨pre, c, rest, heq, hc, hbp⟩
      cases pre with
      | nil =>
        simp only [List.nil_append] at heq
        have hd : d = c := (List.cons.inj heq).1
        have hl : l' = rest := (List.cons.inj heq).2
        subst hd; subst hl
        exact Or.inl ⟨hc, hbp⟩
      | cons p pre' =>
        rw [List.cons_append] at heq
        have hl : l' = pre' ++ c :: rest := (List.cons.inj heq).2
        exact Or.inr (ih.2 ⟨pre', c, rest, hl, hc, hbp⟩)

lemma wwMatch_iff_WholeWordOcc (w terms : List Char) :
    wwMatch w terms = true ↔ WholeWordOcc w terms := by
  unfold wwMatch WholeWordOcc
  rw [Bool.or_eq_true]
  constructor
  · rintro (h | h)
    · rcases (boundedPrefix_iff w terms).1 h with ⟨mid, post, heq, hmap, hb⟩
      exact ⟨[], mid, post, by simpa using heq, hmap, Or.inl rfl,
        by rcases hb with h | ⟨c, p₀, hp, hc⟩
           · exact Or.inl h
           · exact Or.inr ⟨c, p₀, hp, hc⟩⟩
    · rcases (wwSearch_iff w terms).1 h with ⟨pre, c, rest, heq, hc, hbp⟩
      rcases (boundedPrefix_iff w rest).1 hbp with ⟨mid, post, heqr, hmap, hb⟩
      refine ⟨pre ++ [c], mid, post, ?_, hmap, Or.inr ⟨pre, c, rfl, hc⟩,
        by rcases hb with h | ⟨c', p₀, hp, hc'⟩
           · exact Or.inl h
           · exact Or.inr ⟨c', p₀, hp, hc'⟩⟩
      rw [heq, heqr]
      simp
  · rintro ⟨pre, mid, post, heq, hmap, hpre, hpost⟩
    have hpost' : post = [] ∨ ∃ c post₀, post = c :: post₀ ∧ posixSpace c = true := by
      rcases hpost with h | ⟨c, p₀, hp, hc⟩
      · exact Or.inl h
      · exact Or.inr ⟨c, p₀, hp, hc⟩
    rcases hpre with hpre | ⟨pre₀, c, hpc, hc⟩
    · subst hpre
      simp only [List.nil_append] at heq
      exact Or.inl ((boundedPrefix_iff w terms).2 ⟨mid, post, heq, hmap, hpost'⟩)
    · subst hpc
      refine Or.inr ((wwSearch_iff w terms).2 ⟨pre₀, c, mid ++ post, ?_, hc, ?_⟩)
      · rw [heq]; simp
      · exact (boundedPrefix_iff w (mid ++ post)).2 ⟨mid, post, rfl, hmap, hpost'⟩

/-- C6: for a token free of regex metacharacters (so the SQL regex
treats it literally), the per-token filter of `suggest_field_name`
matches a catalog row iff the token equals the canonical name of the row, or
the token occurs — under the case-insensitive `~*` operator — as a
whole word in the synonym list of the row, flanked only by the ends of the
string or whitespace; hence a substring occurrence inside a longer
neighbouring word never matches. -/
theorem tokenMatches_iff_whole_word (w : List Char) (r : WordRoot)
    (_ : regexLiteral w = true) :
    tokenMatches w r = true ↔
      w = r.cn_name ∨ ∃ t, r.associated_terms = some t ∧ WholeWordOcc w t := by
  unfold tokenMatches
  rw [Bool.or_eq_true, decide_eq_true_eq]
  constructor
  · rintro (h | h)
    · exact Or.inl h
    · cases hat : r.associated_terms with
      | none => rw [hat] at h; cases h
      | some t =>
        rw [hat] at h
        exact Or.inr ⟨t, rfl, (wwMatch_iff_WholeWordOcc w t).1 h⟩
  · rintro (h | ⟨t, hat, hocc⟩)
    · exact Or.inl h
    · refine Or.inr ?_
      rw [hat]
      exact (wwMatch_iff_WholeWordOcc w t).2 hocc

/-- Concrete instance of `tokenMatches_iff_whole_word`: token `费` is
matched against `sampleRoot` (synonyms `费 价格`) through its whole-word
occurrence, with the metacharacter-freeness hypothesis discharged by
evaluation. -/
theorem tokenMatches_iff_whole_word_witness :
    tokenMatches "费".toList sampleRoot = true :=
  (tokenMatches_iff_whole_word "费".toList sampleRoot (by decide)).2
    (Or.inr ⟨"费 价格".toList, rfl,
      ⟨[], ['费'], [' ', '价', '格'], by decide, by decide,
        Or.inl rfl, Or.inr ⟨' ', ['价', '格'], rfl, by decide⟩⟩⟩)

lemma dotPrefixBounded_eq (w : List Char) (hw : '.' ∉ w) :
    ∀ rest, dotPrefixBounded w rest = prefixBounded w rest := by
  induction w with
  | nil => intro rest; cases rest <;> rfl
  | cons a w ih =>
    intro rest
    cases rest with
    | nil => rfl
    | cons b rest' =>
      have ha : a ≠ '.' := fun h => hw (h ▸ List.mem_cons_self ..)
      have hw' : '.' ∉ w := fun h => hw (List.mem_cons_of_mem _ h)
      simp only [dotPrefixBounded, prefixBounded, charMatches, ih hw',
        decide_eq_false ha, Bool.false_or]

lemma dotWWSearch_eq (w : List Char) (hw : '.' ∉ w) :
    ∀ l, dotWWSearch w l = wwSearch w l := by
  intro l
  induction l with
  | nil => rfl
  | cons c l' ih =>
    simp only [dotWWSearch, wwSearch, dotPrefixBounded_eq w hw, ih]

lemma wwMatchDot_eq_wwMatch (w terms : List Char) (hw : '.' ∉ w) :
    wwMatchDot w terms = wwMatch w terms := by
  unfold wwMatchDot wwMatch
  rw [dotPrefixBounded_eq w hw, dotWWSearch_eq w hw]

/-- C6 counterexample: `suggest_field_name` interpolates the raw token
into the `~*` pattern, so the regex-metacharacter token `.` (which the
segmenter emits for ASCII punctuation) matches `dotRoot` through its
one-character synonym `a` — the dot matches any character — even
though `.` neither equals the canonical name nor occurs anywhere in
the synonym list: the claimed iff is false of the program on
metacharacter tokens. -/
theorem tokenMatches_dot_counterexample :
    tokenMatchesDot ['.'] dotRoot = true ∧
    ['.'] ≠ dotRoot.cn_name ∧
    dotRoot.associated_terms = some ['a'] ∧
    ¬WholeWordOcc ['.'] ['a'] := by
  refine ⟨by decide, by decide, rfl, ?_⟩
  rintro ⟨pre, mid, post, heq, hmap, -, -⟩
  cases mid with
  | nil => simp at hmap
  | cons c mid' =>
    simp only [List.map_cons, List.map_nil] at hmap
    have hc : c.toLower = '.'.toLower := (List.cons.inj hmap).1
    have hmid' : mid' = [] := List.map_eq_nil_iff.1 (List.cons.inj hmap).2
    subst hmid'
    rw [List.append_assoc, List.singleton_append] at heq
    cases pre with
    | nil =>
      rw [List.nil_append] at heq
      have hca : 'a' = c := (List.cons.inj heq).1
      rw [← hca] at hc
      exact absurd hc (by decide)
    | cons p pre' =>
      rw [List.cons_append] at heq
      have htail : ([] : List Char) = pre' ++ c :: post := (List.cons.inj heq).2
      exact (List.cons_ne_nil c post) (List.append_eq_nil.1 htail.symm).2

/-! ### The lexical resolver -/

lemma resolveLoop_counts (db : List Char → Except Unit (Option WordRoot)) :
    ∀ words : List (List Char),
      (resolveLoop db words).2.2.length + (resolveLoop db words).2.1.length
          = (words.filter fun w => !(trimChars w).isEmpty).length ∧
      (resolveLoop db words).1.length
          = (words.filter fun w => !(trimChars w).isEmpty).length := by
  intro words
  induction words with
  | nil => exact ⟨rfl, rfl⟩
  | cons w ws ih =>
    by_cases h : (trimChars w).isEmpty
    · simpa [resolveLoop, h, List.filter_cons] using ih
    · cases hdb : (db w).toOption.getD none with
      | some r =>
        constructor
        · simp [resolveLoop, h, hdb, List.filter_cons, ih.1]
          omega
        · simp [resolveLoop, h, hdb, List.filter_cons, ih.2]
      | none =>
        constructor
        · simp [resolveLoop, h, hdb, List.filter_cons, ih.1]
          omega
        · simp [resolveLoop, h, hdb, List.filter_cons, ih.2]

/-- C7: the resolver satisfies
`matchedIds.length + missing.length = count(non-empty tokens)` for every
store behaviour and every token list: whitespace-only tokens are
skipped, each remaining token contributes exactly one identifier part
(an abbreviation on a match, a bracketed placeholder on a miss) and
exactly one entry to matchedIds or missing, and the identifier is the
parts joined with `_` in token order. -/
theorem suggest_field_name_token_accounting
    (db : List Char → Except Unit (Option WordRoot)) (words : List (List Char)) :
    (suggest_field_name db words).2.2.length + (suggest_field_name db words).2.1.length
        = (words.filter fun w => !(trimChars w).isEmpty).length ∧
    (resolveLoop db words).1.length
        = (words.filter fun w => !(trimChars w).isEmpty).length ∧
    (suggest_field_name db words).1
        = List.intercalate ['_'] (resolveLoop db words).1 :=
  ⟨(resolveLoop_counts db words).1, (resolveLoop_counts db words).2, rfl⟩

lemma resolveLoop_congr (db db' : List Char → Except Unit (Option WordRoot))
    (h : ∀ w, (db w).toOption.getD none = (db' w).toOption.getD none) :
    ∀ words, resolveLoop db words = resolveLoop db' words := by
  intro words
  induction words with
  | nil => rfl
  | cons w ws ih => simp [resolveLoop, ih, h w]

/-- C3 (amended): the resolver is insensitive to the difference
between a store failure and a lookup miss — `suggest_field_name` treats
every per-token catalog outcome through `.unwrap_or(None)`, so a failed
lookup behaves exactly like a miss and the call still succeeds. -/
theorem suggest_field_name_failure_is_miss
    (db : List Char → Except Unit (Option WordRoot)) (words : List (List Char)) :
    suggest_field_name db words
      = suggest_field_name (fun w => .ok ((db w).toOption.getD none)) words := by
  unfold suggest_field_name
  rw [resolveLoop_congr db (fun w => .ok ((db w).toOption.getD none)) (fun _ => rfl)]

/-- C3 counterexample: with the catalog store failing on every
per-token lookup, `suggest_field_name` still returns an ordinary
success triple — the token of the failed lookup is reported in
`missing` exactly as a miss would be (the return type of the service has no
error channel at all), so a catalog-access failure is not surfaced as a
hard error. -/
theorem suggest_field_name_store_failure_not_error :
    suggest_field_name (fun _ => .error ()) ["价".toList]
      = ("[价]".toList, ["价".toList], ([] : List Int)) := by decide

/-! ### The two-tier search router -/

/-- C5: whenever the Tier 1 catalog query returns a non-empty result
list, `search_field` returns it immediately with HTTP 200 and the
embedding model is never invoked (`embedCalled = false`), so Tier 2 is
never entered. -/
theorem search_field_tier1_short_circuit (q : List Char)
    (t1 : List Char → Except Unit (List StandardField))
    (emb : List Char → Except Unit Nat) (idx : Nat → Except Unit (List ScoredHit))
    (l : List StandardField) (h : t1 ('%' :: q ++ ['%']) = .ok l) (hne : l ≠ []) :
    search_field q t1 emb idx = ⟨200, .fields l, true, false⟩ := by
  cases l with
  | nil => exact absurd rfl hne
  | cons a t =>
    unfold search_field
    rw [h]
    rfl

/-- Concrete instance of `search_field_tier1_short_circuit`: an exact
catalog hit returns the Tier 1 rows and the embedding call count stays
zero even though the embedding and index stubs would fail if touched. -/
theorem search_field_tier1_short_circuit_witness :
    search_field "价".toList (fun _ => .ok [sampleField])
        (fun _ => .error ()) (fun _ => .error ())
      = ⟨200, .fields [sampleField], true, false⟩ :=
  search_field_tier1_short_circuit _ _ _ _ [sampleField] rfl (by decide)

/-- C4 counterexample: when the Tier 1 catalog query fails
(`t1 = error`), `search_field` does not fail with a hard error — the
failure is collapsed to an empty list by `.unwrap_or_default()` and the
call proceeds into Tier 2, returning HTTP 200 with vector hits and
invoking the embedding model. -/
theorem search_field_tier1_failure_proceeds :
    search_field "价".toList (fun _ => .error ()) (fun _ => .ok 0)
        (fun _ => .ok [sampleHit])
      = ⟨200, .hits [sampleHit], true, true⟩ := by decide

/-- C4 (amended): a Tier 1 store failure is indistinguishable from
an empty Tier 1 result and search proceeds to Tier 2; a Tier 2
embedding or index failure degrades to an empty HTTP-200 response (no
distinct error status), and Tier 1 is issued exactly once — never
re-attempted. -/
theorem search_field_degrades :
    (∀ (q : List Char) (emb : List Char → Except Unit Nat)
        (idx : Nat → Except Unit (List ScoredHit)),
        search_field q (fun _ => .error ()) emb idx
          = search_field q (fun _ => .ok []) emb idx) ∧
    (∀ (q : List Char) (t1 : List Char → Except Unit (List StandardField))
        (emb : List Char → Except Unit Nat) (idx : Nat → Except Unit (List ScoredHit)),
        t1 ('%' :: q ++ ['%']) = .ok [] → emb q = .error () →
        search_field q t1 emb idx = ⟨200, .fields [], true, true⟩) ∧
    (∀ (q : List Char) (t1 : List Char → Except Unit (List StandardField))
        (emb : List Char → Except Unit Nat) (idx : Nat → Except Unit (List ScoredHit))
        (v : Nat),
        t1 ('%' :: q ++ ['%']) = .ok [] → emb q = .ok v → idx v = .error () →
        search_field q t1 emb idx = ⟨200, .fields [], true, true⟩) := by
  refine ⟨fun q emb idx => rfl, ?_, ?_⟩
  · intro q t1 emb idx h1 h2
    unfold search_field
    rw [h1, h2]
    rfl
  · intro q t1 emb idx v h1 h2 h3
    unfold search_field
    rw [h1, h2]
    simp only [h3]
    rfl

/-- Concrete instance of `search_field_degrades`: an empty Tier 1
result with a failing embedding call yields the empty 200 response. -/
theorem search_field_degrades_witness :
    search_field "价".toList (fun _ => .ok []) (fun _ => .error ())
        (fun _ => .ok [])
      = ⟨200, .fields [], true, true⟩ :=
  search_field_degrades.2.1 "价".toList _ _ _ rfl rfl

/-! ### Query validation -/

/-- C8 counterexample: `search_field` performs no empty-query
validation — on the empty query the Tier 1 catalog query is still
issued (`t1Queried = true`, the ILIKE pattern degenerates to `%%`) and
the call returns 200 with whatever the store matched, not a 400
validation error. -/
theorem search_field_empty_query_not_rejected :
    search_field [] (fun _ => .ok [sampleField]) (fun _ => .error ())
        (fun _ => .error ())
      = ⟨200, .fields [sampleField], true, false⟩ := by decide

/-- C8 (amended): `suggest_mapping` and `search_similar_roots`
reject an empty or whitespace-only query with HTTP 400 before any store
access (the result is `(400, none)` uniformly in the store stubs),
whereas `search_field` always issues the Tier 1 catalog query, for
every query text including the empty one. -/
theorem empty_query_validation :
    (∀ (q : List Char) (cut : List Char → List (List Char))
        (db : List Char → Except Unit (Option WordRoot)),
        (trimChars q).isEmpty = true → suggest_mapping q cut db = (400, none)) ∧
    (∀ (q : List Char) (emb : List Char → Except Unit Nat)
        (idx : Nat → Except Unit (List ScoredHit)),
        (trimChars q).isEmpty = true → search_similar_roots q emb idx = (400, none)) ∧
    (∀ (q : List Char) (t1 : List Char → Except Unit (List StandardField))
        (emb : List Char → Except Unit Nat) (idx : Nat → Except Unit (List ScoredHit)),
        (search_field q t1 emb idx).t1Queried = true) := by
  refine ⟨?_, ?_, ?_⟩
  · intro q cut db h
    simp [suggest_mapping, h]
  · intro q emb idx h
    simp [search_similar_roots, h]
  · intro q t1 emb idx
    simp only [search_field]
    split
    · rfl
    · split
      · split <;> rfl
      · rfl

/-- Concrete instance of `empty_query_validation` at the whitespace-only
query `" "`. -/
theorem empty_query_validation_witness :
    suggest_mapping [' '] (fun _ => []) (fun _ => .error ()) = (400, none) ∧
    search_similar_roots [' '] (fun _ => .error ()) (fun _ => .error ())
      = (400, none) :=
  ⟨empty_query_validation.1 [' '] _ _ (by decide),
   empty_query_validation.2.1 [' '] _ _ (by decide)⟩

/-! ### Mirror consistency of the mutation handlers -/

/-- C1 counterexample: for `create_root`, a catalog success followed
by a failed vector-index upsert produces an outcome identical to the
full-success one — HTTP 201 either way, the upsert result being
discarded by `let _ = ...` — so the caller receives no distinct
partial-success (`PartialSync`) signal. -/
theorem create_root_mirror_failure_indistinct :
    create_root (.ok sampleRoot) (.ok 0) (fun _ => .error ())
      = create_root (.ok sampleRoot) (.ok 0) (fun _ => .ok ()) ∧
    (create_root (.ok sampleRoot) (.ok 0) (fun _ => .error ())).1 = 201 :=
  ⟨rfl, rfl⟩

/-- C1 (amended): only `clear_all_fields` inspects its mirror write
and reports 206 (partial) against 200 (full success); `create_root`,
`update_root`, `delete_root` and `clear_all_roots` return the
full-success status whatever the mirror outcome, and `create_field`,
`update_field`, `delete_field` make no mirror attempt at all. -/
theorem mirror_failure_status_reporting :
    ((clear_all_fields (.ok ()) (.error ())).1 = 206 ∧
     (clear_all_fields (.ok ()) (.ok ())).1 = 200) ∧
    (∀ (r : WordRoot) (e : Except Unit Nat) (u : Nat → Except Unit Unit),
        (create_root (.ok r) e u).1 = 201) ∧
    (∀ (r : WordRoot) (e : Except Unit Nat) (u : Nat → Except Unit Unit),
        (update_root (.ok r) e u).1 = 200) ∧
    (∀ (i : Int) (n : Nat) (d : Except Unit Unit), 0 < n →
        (delete_root i (.ok n) d).1 = 204) ∧
    (∀ d : Except Unit Unit, (clear_all_roots (.ok ()) d).1 = 200) ∧
    (∀ f : StandardField, create_field (.ok f) = (201, [])) ∧
    (∀ n : Nat, 0 < n → update_field (.ok n) = (200, [])) ∧
    (∀ n : Nat, 0 < n → delete_field (.ok n) = (204, [])) := by
  refine ⟨⟨rfl, rfl⟩, ?_, ?_, ?_, fun d => rfl, fun f => rfl, ?_, ?_⟩
  · intro r e u; cases e <;> rfl
  · intro r e u; cases e <;> rfl
  · intro i n d h; simp [delete_root, h]
  · intro n h; simp [update_field, h]
  · intro n h; simp [delete_field, h]

/-- Concrete instance of `mirror_failure_status_reporting`: a root
delete whose mirror delete fails still answers 204, and a field update
answers 200 with no mirror attempt. -/
theorem mirror_failure_status_reporting_witness :
    (delete_root 1 (.ok 1) (.error ())).1 = 204 ∧
    update_field (.ok 1) = (200, []) := by
  obtain ⟨-, -, -, h4, -, -, h7, -⟩ := mirror_failure_status_reporting
  exact ⟨h4 1 1 (.error ()) (by decide), h7 1 (by decide)⟩

/-- C2 counterexample: a successful `create_field` attempts no
vector-index operation at all (the handler has no index access on any
path), contrary to the claim that every successful catalog mutation of
a CompositeEntity upserts its VectorRecord; `update_field` and
`delete_field` likewise attempt none. -/
theorem field_mutations_no_mirror :
    create_field (.ok sampleField) = (201, ([] : List MirrorOp)) ∧
    update_field (.ok 1) = (200, ([] : List MirrorOp)) ∧
    delete_field (.ok 1) = (204, ([] : List MirrorOp)) :=
  ⟨rfl, rfl, rfl⟩

/-- C2 (amended): the mirror is maintained only for Morphemes —
on a successful root create/update with a successful embedding an
upsert keyed by the row id is attempted in `word_roots`, on a root
delete the point delete is attempted (and when the embedding fails no
upsert is attempted) — while CompositeEntity mutations never touch the
index; `standard_fields` is populated only by the startup bulk sync. -/
theorem mirror_sync_per_entity :
    (∀ (r : WordRoot) (u : Nat → Except Unit Unit) (v : Nat),
        (create_root (.ok r) (.ok v) u).2 = [.upsertPoint "word_roots" r.id]) ∧
    (∀ (r : WordRoot) (u : Nat → Except Unit Unit) (v : Nat),
        (update_root (.ok r) (.ok v) u).2 = [.upsertPoint "word_roots" r.id]) ∧
    (∀ (i : Int) (n : Nat) (d : Except Unit Unit), 0 < n →
        (delete_root i (.ok n) d).2 = [.deletePoint "word_roots" i]) ∧
    (∀ (r : WordRoot) (u : Nat → Except Unit Unit),
        (create_root (.ok r) (.error ()) u).2 = []) ∧
    (∀ f : StandardField, (create_field (.ok f)).2 = []) ∧
    (∀ n : Nat, (update_field (.ok n)).2 = [] ∧ (delete_field (.ok n)).2 = []) := by
  refine ⟨fun r u v => rfl, fun r u v => rfl, ?_, fun r u => rfl, fun f => rfl, ?_⟩
  · intro i n d h; simp [delete_root, h]
  · intro n
    constructor
    · unfold update_field
      split
      · split <;> rfl
      · rfl
    · unfold delete_field
      split
      · split <;> rfl
      · rfl

/-- Concrete instance of `mirror_sync_per_entity`: a root delete with an
affected row attempts the point delete in `word_roots`. -/
theorem mirror_sync_per_entity_witness :
    (delete_root 1 (.ok 1) (.ok ())).2 = [.deletePoint "word_roots" 1] := by
  obtain ⟨-, -, h3, -⟩ := mirror_sync_per_entity
  exact h3 1 1 (.ok ()) (by decide)

end DataDict
